import Mathlib

/-!
A Lean model of the core of a busy-beaver Turing-machine simulator written in C:
bit-packed symbol buffers (src/tape_bit.c, src/bitarray/tape.c), the growable flat
tape (src/tape_flat.c), the run-length-encoded tape (src/tape_rle.c), the
transition table with its ASCII codec (src/tm_def.c), the stepping driver
(src/tm_run.c, src/bitarray/machine.c), the macro-machine encoder
(src/mm_utils.c) and the mixed tape comparison (src/tape_utils.c).

Machine words (C type unsigned long, 64 bits) are modelled as Nat kept below
2 ^ 64 by the mask discipline of the C code itself; the C complement operator
on a 64-bit word is modelled by xor with the all-ones word.  The 8-bit C types
sym_t, state_t and dir_t (all unsigned char) are modelled as Nat reduced mod
256 exactly where the C performs a narrowing conversion.
-/
/-- Number of bits in one machine word (BLOCK_BITS and UNIT_BITS in the C). -/
def BLOCK_BITS : Nat := 64
/-- The all-ones 64-bit word. -/
def mask64 : Nat := 2 ^ 64 - 1
/-- Model of the C bitwise complement on an unsigned long operand. -/
def compl64 (m : Nat) : Nat := mask64 ^^^ m
/-- Model of bitmask from src/util.c and src/bitarray/util.c: a mask with ones
at bit positions from (inclusive) to to (exclusive):
mask_low = (1UL leftshift (to - from)) - 1UL, returned shifted up by from.
For to - from = 64 the C shift is out of range; the Nat value 2 ^ 64 - 1 taken
here is the wrap-around reading that makes the callers of this case work. -/
def bitmask (a b : Nat) : Nat := ((1 <<< (b - a)) - 1) <<< a
/-- Loop of floor_log2, with the argument itself as fuel (the shift count
never exceeds the argument). -/
def floor_log2_aux : Nat → Nat → Nat
  | 0, _ => 0
  | fuel + 1, n => if n / 2 = 0 then 0 else floor_log2_aux fuel (n / 2) + 1
/-- Model of floor_log2 from src/tm.c: the position of the highest set bit,
i.e. the m with n rightshift (m + 1) = 0 (0 for n = 0). -/
def floor_log2 (n : Nat) : Nat := floor_log2_aux n n
/-- Byte sequence of an ASCII string, the model of a C string. -/
def strBytes (s : String) : List Nat := s.toList.map Char.toNat
/-! ## The packed symbol buffer

unitsRead and unitsWrite are the word-level cores shared verbatim by
bit_tape_read / bit_tape_write (src/tape_bit.c) and tape_read / tape_write
(src/bitarray/tape.c): symbol i of width W occupies the bit range
[i * W, (i + 1) * W) of the word stream.  The word array is modelled as a
total function from word index to word value (the C allocation size plays no
role for the read/write values). -/
/-- Read symbol number sym_idx of width sym_bits from a packed word buffer
(the body of bit_tape_read in src/tape_bit.c before the sym_t cast, identical
to tape_read in src/bitarray/tape.c). -/
def unitsRead (W : Nat) (blocks : Nat → Nat) (sym_idx : Nat) : Nat :=
  let bit_from := sym_idx * W
  let bit_to := (sym_idx + 1) * W
  let unit_from := bit_from / BLOCK_BITS
  let unit_to := bit_to / BLOCK_BITS
  let shift_low := bit_from % BLOCK_BITS
  let shift_high := bit_to % BLOCK_BITS
  if unit_from = unit_to then
    (blocks unit_from &&& bitmask shift_low (bit_to % BLOCK_BITS)) >>> shift_low
  else
    let low_unit := (blocks unit_from &&& bitmask shift_low BLOCK_BITS) >>> shift_low
    let high_unit := (blocks unit_to &&& bitmask 0 (bit_to % BLOCK_BITS)) <<< (W - shift_high)
    low_unit ||| high_unit
/-- Write symbol sym of width sym_bits at index sym_idx into a packed word
buffer (the body of bit_tape_write in src/tape_bit.c, identical to tape_write
in src/bitarray/tape.c).  The asserts of the C code (index in range, symbol
within sym_bits bits) hold at every use made by the theorems below. -/
def unitsWrite (W : Nat) (blocks : Nat → Nat) (sym_idx : Nat) (sym : Nat) : Nat → Nat :=
  let bit_from := sym_idx * W
  let bit_to := (sym_idx + 1) * W
  let unit_from := bit_from / BLOCK_BITS
  let unit_to := bit_to / BLOCK_BITS
  let shift_low := bit_from % BLOCK_BITS
  let shift_high := bit_to % BLOCK_BITS
  if unit_from = unit_to then
    let mask := bitmask shift_low (bit_to % BLOCK_BITS)
    let unit := (blocks unit_from &&& compl64 mask) ||| (sym <<< shift_low)
    fun u => if u = unit_from then unit else blocks u
  else
    let sym_mask := bitmask 0 (BLOCK_BITS - shift_low)
    let low_mask := bitmask shift_low BLOCK_BITS
    let high_mask := bitmask 0 shift_high
    let high_unit := (blocks unit_from &&& compl64 low_mask) |||
      ((sym &&& sym_mask) <<< shift_low)
    let low_unit := (blocks unit_to &&& compl64 high_mask) |||
      ((sym &&& compl64 sym_mask) >>> (W - shift_high))
    fun u => if u = unit_from then high_unit
             else if u = unit_to then low_unit
             else blocks u
/-- Bit p of the packed bit stream held by a word buffer. -/
def streamBit (blocks : Nat → Nat) (p : Nat) : Bool :=
  (blocks (p / 64)).testBit (p % 64)
/-- All words of a buffer fit in 64 bits. -/
def ValidBuf (blocks : Nat → Nat) : Prop := ∀ u, blocks u < 2 ^ 64
/-! ## The flat tape (src/tape_flat.c)

The C struct flat_tape_t keeps the buffer, its length len, the head position
rel_pos relative to the start of the run, and the buffer offset init_pos with
mem_pos = rel_pos + init_pos the invariant index of the head.  The len field
always equals the buffer length, so the model uses syms.length for it. -/
structure FlatTape where
  syms : List Nat
  rel_pos : Int
  init_pos : Int
  sym_bits : Nat
deriving DecidableEq
/-- flat_tape_init from src/tape_flat.c.  The C allocates the buffer with
malloc and never clears it, so the model takes the allocator-provided
contents mem (a list of length len) as a parameter.  The asserts
0 <= init_pos < len and 1 <= sym_bits <= 8 are modelled as a guard. -/
def flat_tape_init (len : Int) (init_pos : Int) (sym_bits : Nat) (mem : List Nat) :
    Option FlatTape :=
  if 0 ≤ init_pos ∧ init_pos < len ∧ 1 ≤ sym_bits ∧ sym_bits ≤ 8 ∧
      (mem.length : Int) = len then
    some ⟨mem, 0, init_pos, sym_bits⟩
  else none
/-- The head index mem_pos = rel_pos + init_pos of a flat tape. -/
def FlatTape.memPos (t : FlatTape) : Int := t.rel_pos + t.init_pos
/-- flat_tape_write from src/tape_flat.c: store sym at the head index. -/
def flat_tape_write (t : FlatTape) (sym : Nat) : FlatTape :=
  { t with syms := t.syms.set t.memPos.toNat sym }
/-- flat_tape_read from src/tape_flat.c: the symbol at the head index. -/
def flat_tape_read (t : FlatTape) : Nat :=
  t.syms.getD t.memPos.toNat 0
/-- flat_tape_move from src/tape_flat.c: if the move would leave the buffer,
first reallocate at twice the length with the old contents copied to offset
old_len / 2 (zero fill on both sides) and init_pos incremented by the offset;
then move the head. -/
def flat_tape_move (t : FlatTape) (delta : Int) : FlatTape :=
  let mem_pos := t.memPos
  let t1 :=
    if mem_pos + delta < 0 ∨ mem_pos + delta ≥ (t.syms.length : Int) then
      let old_len := t.syms.length
      let new_len := old_len * 2
      let offset := old_len / 2
      { t with
        syms := List.replicate offset 0 ++ t.syms ++
          List.replicate (new_len - old_len - offset) 0,
        init_pos := t.init_pos + offset }
    else t
  { t1 with rel_pos := t1.rel_pos + delta }
/-- The symbol a flat tape holds at relative position p: the buffer entry at
p + init_pos when that index is inside the buffer, 0 otherwise (a cell never
materialized is blank). -/
def flatAt (t : FlatTape) (p : Int) : Nat :=
  if 0 ≤ p + t.init_pos ∧ p + t.init_pos < (t.syms.length : Int) then
    t.syms.getD (p + t.init_pos).toNat 0
  else 0
/-- The in-bounds head invariant of the flat tape. -/
def FlatInv (t : FlatTape) : Prop :=
  0 ≤ t.memPos ∧ t.memPos < (t.syms.length : Int)
instance (t : FlatTape) : Decidable (FlatInv t) := by
  unfold FlatInv; infer_instance
/-! ## The run-length-encoded tape (src/tape_rle.c)

The C keeps a doubly linked chain of segments (sym, len) with a pointer curr
into it and the offset rle_pos of the head inside curr.  The chain is modelled
as a zipper: leftSegs lists the segments to the left of curr with the nearest
first, rightSegs symmetrically to the right.  A NULL neighbor is the empty
list.  The pointer surgery of the C (rle_elem_link, rle_elem_shrink) becomes
the corresponding list surgery on the zipper. -/
structure RleSeg where
  sym : Nat
  len : Nat
deriving DecidableEq
structure RleTape where
  leftSegs : List RleSeg
  curr : RleSeg
  rightSegs : List RleSeg
  rle_pos : Nat
  rel_pos : Int
  sym_bits : Nat
deriving DecidableEq
/-- rle_tape_init from src/tape_rle.c: a single segment of one blank symbol. -/
def rle_tape_init (sym_bits : Nat) : RleTape :=
  ⟨[], ⟨0, 1⟩, [], 0, 0, sym_bits⟩
/-- rle_tape_read from src/tape_rle.c. -/
def rle_tape_read (t : RleTape) : Nat := t.curr.sym
/-- rle_tape_write from src/tape_rle.c.  Branches in the order of the C code:
same symbol is a no-op; at offset 0 with a matching left neighbor, extend that
neighbor and shrink the old segment (rle_elem_shrink frees it at length 0);
the corresponding right-neighbor branch tests rle_pos == orig->len exactly as
the C does; otherwise split into up to three segments around a new singleton. -/
def rle_tape_write (t : RleTape) (sym : Nat) : RleTape :=
  let orig := t.curr
  if orig.sym = sym then t
  else if t.rle_pos = 0 ∧ t.leftSegs ≠ [] ∧
      (t.leftSegs.headD ⟨0, 0⟩).sym = sym then
    match t.leftSegs with
    | [] => t
    | l :: ls =>
      let newCurr : RleSeg := ⟨l.sym, l.len + 1⟩
      if orig.len - 1 = 0 then
        ⟨ls, newCurr, t.rightSegs, newCurr.len - 1, t.rel_pos, t.sym_bits⟩
      else
        ⟨ls, newCurr, ⟨orig.sym, orig.len - 1⟩ :: t.rightSegs,
          newCurr.len - 1, t.rel_pos, t.sym_bits⟩
  else if t.rle_pos = orig.len ∧ t.rightSegs ≠ [] ∧
      (t.rightSegs.headD ⟨0, 0⟩).sym = sym then
    match t.rightSegs with
    | [] => t
    | r :: rs =>
      let newCurr : RleSeg := ⟨r.sym, r.len + 1⟩
      if orig.len - 1 = 0 then
        ⟨t.leftSegs, newCurr, rs, 0, t.rel_pos, t.sym_bits⟩
      else
        ⟨⟨orig.sym, orig.len - 1⟩ :: t.leftSegs, newCurr, rs, 0, t.rel_pos,
          t.sym_bits⟩
  else
    let left_len := t.rle_pos
    let right_len := orig.len - t.rle_pos - 1
    ⟨(if left_len > 0 then [⟨orig.sym, left_len⟩] else []) ++ t.leftSegs,
      ⟨sym, 1⟩,
      (if right_len > 0 then [⟨orig.sym, right_len⟩] else []) ++ t.rightSegs,
      0, t.rel_pos, t.sym_bits⟩
/-- rle_tape_move from src/tape_rle.c for delta = 1 or -1: update rel_pos,
then either move inside curr, descend into an existing neighbor, extend a
blank edge run, or create a fresh blank singleton at the edge. -/
def rle_tape_move (t : RleTape) (delta : Int) : RleTape :=
  let rel' := t.rel_pos + delta
  if (t.rle_pos : Int) + delta < 0 then
    match t.leftSegs with
    | [] =>
      if t.curr.sym = 0 then
        { t with curr := ⟨t.curr.sym, t.curr.len + 1⟩, rel_pos := rel' }
      else
        ⟨[], ⟨0, 1⟩, t.curr :: t.rightSegs, 0, rel', t.sym_bits⟩
    | l :: ls => ⟨ls, l, t.curr :: t.rightSegs, l.len - 1, rel', t.sym_bits⟩
  else if (t.rle_pos : Int) + delta ≥ (t.curr.len : Int) then
    match t.rightSegs with
    | [] =>
      if t.curr.sym = 0 then
        { t with curr := ⟨t.curr.sym, t.curr.len + 1⟩,
                 rle_pos := t.rle_pos + 1, rel_pos := rel' }
      else
        ⟨t.curr :: t.leftSegs, ⟨0, 1⟩, [], 0, rel', t.sym_bits⟩
    | r :: rs => ⟨t.curr :: t.leftSegs, r, rs, 0, rel', t.sym_bits⟩
  else
    { t with rle_pos := ((t.rle_pos : Int) + delta).toNat, rel_pos := rel' }
/-- The full segment chain of the tape, leftmost segment first. -/
def rleSegList (t : RleTape) : List RleSeg :=
  t.leftSegs.reverse ++ t.curr :: t.rightSegs
/-- Whether no two adjacent segments of a chain share a symbol. -/
def adjOk : List RleSeg → Bool
  | a :: b :: rest => a.sym ≠ b.sym && adjOk (b :: rest)
  | _ => true
/-- Whether every segment of a chain has positive length. -/
def lensOk (l : List RleSeg) : Bool := l.all (fun s => 0 < s.len)
/-- One tape operation of the RLE interface: a write of a symbol or a move by
a delta (reads do not change the tape). -/
inductive RleOp where
  | write (sym : Nat)
  | move (delta : Int)
deriving DecidableEq
/-- Run a sequence of RLE tape operations from a given tape. -/
def applyRleOps (t : RleTape) (ops : List RleOp) : RleTape :=
  ops.foldl (fun t op => match op with
    | .write s => rle_tape_write t s
    | .move d => rle_tape_move t d) t
/-- Symbol at distance d left of the left end of the current segment. -/
def rleGoLeft : List RleSeg → Nat → Nat
  | [], _ => 0
  | seg :: rest, d => if d < seg.len then seg.sym else rleGoLeft rest (d - seg.len)
/-- Symbol at distance d right of the right end of the current segment. -/
def rleGoRight : List RleSeg → Nat → Nat
  | [], _ => 0
  | seg :: rest, d => if d < seg.len then seg.sym else rleGoRight rest (d - seg.len)
/-- The symbol an RLE tape holds at relative position p (head at rel_pos). -/
def rleAt (t : RleTape) (p : Int) : Nat :=
  let o := p - t.rel_pos
  if o < -(t.rle_pos : Int) then
    rleGoLeft t.leftSegs (-(t.rle_pos : Int) - 1 - o).toNat
  else if o < (t.curr.len : Int) - (t.rle_pos : Int) then
    t.curr.sym
  else
    rleGoRight t.rightSegs (o - ((t.curr.len : Int) - (t.rle_pos : Int))).toNat
/-! ## The transition table (src/tm_def.c)

The struct layout used by src/tm_def.c (parallel arrays sym_tab, state_tab and
the bit-packed dir_tab) and its instruction struct with field order
(sym, dir, state) are declared in src/tm.c, the revision the file was split
from; the positional initializers of tm_def_parse are read with that field
order.  The 8-bit state_t arithmetic state_c - 'A' is modelled as
(state_c + 191) % 256 (-65 is congruent to 191 mod 256).  tm_def_init
allocates the three tables with malloc, so the model takes their junk initial
contents as parameters. -/
structure TmInstr where
  sym : Nat
  dir : Nat
  state : Nat
deriving DecidableEq
structure TmDef where
  n_syms : Nat
  n_states : Nat
  sym_tab : Nat → Nat
  state_tab : Nat → Nat
  dir_tab : Nat → Nat
/-- tm_def_store from src/tm_def.c: write the three components of an
instruction at idx = state * n_syms + sym; the direction goes into bit
idx mod 64 of word idx / 64 of dir_tab. -/
def tm_def_store (d : TmDef) (state sym : Nat) (instr : TmInstr) : TmDef :=
  let idx := state * d.n_syms + sym
  let field_idx := idx / 64
  let bit_idx := idx % 64
  { d with
    sym_tab := fun i => if i = idx then instr.sym else d.sym_tab i,
    state_tab := fun i => if i = idx then instr.state else d.state_tab i,
    dir_tab := fun u =>
      if u = field_idx then
        if instr.dir = 0 then d.dir_tab u &&& compl64 (1 <<< bit_idx)
        else d.dir_tab u ||| (1 <<< bit_idx)
      else d.dir_tab u }
/-- tm_def_lookup from src/tm_def.c. -/
def tm_def_lookup (d : TmDef) (state sym : Nat) : TmInstr :=
  let idx := state * d.n_syms + sym
  ⟨d.sym_tab idx, (d.dir_tab (idx / 64) >>> (idx % 64)) &&& 1, d.state_tab idx⟩
/-- tm_def_init from src/tm_def.c: the size asserts, with the malloc contents
of the three tables supplied as parameters. -/
def tm_def_init (n_syms n_states : Nat) (jsym jstate jdir : Nat → Nat) :
    Option TmDef :=
  if 0 < n_syms ∧ 0 < n_states then
    some ⟨n_syms, n_states, jsym, jstate, jdir⟩
  else none
/-- Character of a C string at index i; reading at or past the terminating
NUL yields 0. -/
def charAt (txt : List Nat) (i : Nat) : Nat := txt.getD i 0
/-- Index into the program text of the first character of cell (q, s). -/
def cellIdx (n_syms q s : Nat) : Nat := q * (n_syms * 3 + 1) + s * 3
/-- One cell of tm_def_parse from src/tm_def.c: either the '---' triple
(stored as the instruction {0, DIR_LEFT, STATE_UNDEF}, i.e. next state
'Z' - 'A' = 25), or digit, L or R, letter; anything else is a parse error
(the out-of-range-letter case only warns). -/
def parseCell (txt : List Nat) (n_syms : Nat) (d : TmDef) (q s : Nat) :
    Option TmDef :=
  let idx := cellIdx n_syms q s
  let sym_c := charAt txt idx
  if sym_c < 48 ∨ 48 + n_syms ≤ sym_c then
    if sym_c = 45 ∧ charAt txt (idx + 1) = 45 ∧ charAt txt (idx + 2) = 45 then
      some (tm_def_store d q s ⟨0, 0, 25⟩)
    else none
  else
    let dir_c := charAt txt (idx + 1)
    if dir_c = 76 ∨ dir_c = 82 then
      let state_c := charAt txt (idx + 2)
      some (tm_def_store d q s
        ⟨sym_c - 48, if dir_c = 76 then 0 else 1, (state_c + 191) % 256⟩)
    else none
/-- The terminator check after row q of tm_def_parse: an underscore after
every row but the last, the NUL terminator after the last. -/
def rowTermOk (txt : List Nat) (n_syms n_states q : Nat) : Bool :=
  let term := charAt txt (q * (n_syms * 3 + 1) + n_syms * 3)
  if q < n_states - 1 then term = 95 else term = 0
/-- Parse the cells of row q in symbol order. -/
def parseRowCells (txt : List Nat) (n_syms : Nat) (q : Nat) :
    List Nat → TmDef → Option TmDef
  | [], d => some d
  | s :: rest, d =>
    match parseCell txt n_syms d q s with
    | none => none
    | some d' => parseRowCells txt n_syms q rest d'
/-- Parse the rows of the program in state order, with the terminator check
after each row. -/
def parseRows (txt : List Nat) (n_syms n_states : Nat) :
    List Nat → TmDef → Option TmDef
  | [], d => some d
  | q :: rest, d =>
    match parseRowCells txt n_syms q (List.range n_syms) d with
    | none => none
    | some d' =>
      if rowTermOk txt n_syms n_states q then parseRows txt n_syms n_states rest d'
      else none
/-- tm_def_parse from src/tm_def.c: the row width up to the first underscore
gives n_syms, the total length gives n_states, then every cell is decoded and
stored.  Any ERROR exit of the C code is the value none. -/
def tm_def_parse (txt : List Nat) (jsym jstate jdir : Nat → Nat) : Option TmDef :=
  let cols := (txt.takeWhile (fun c => ¬(c = 0 ∨ c = 95))).length
  if cols % 3 ≠ 0 then none
  else
    let n_syms := cols / 3
    let n_states := (txt.length + 1) / (n_syms * 3 + 1)
    match tm_def_init n_syms n_states jsym jstate jdir with
    | none => none
    | some d0 => parseRows txt n_syms n_states (List.range n_states) d0
/-- The instruction encoded at cell (q, s) of a program text: the value
tm_def_parse stores there when it succeeds (arbitrary at cells it rejects). -/
def decodeCell (txt : List Nat) (n_syms q s : Nat) : TmInstr :=
  let idx := cellIdx n_syms q s
  let sym_c := charAt txt idx
  if sym_c = 45 ∧ charAt txt (idx + 1) = 45 ∧ charAt txt (idx + 2) = 45 then
    ⟨0, 0, 25⟩
  else
    ⟨sym_c - 48, if charAt txt (idx + 1) = 76 then 0 else 1,
      (charAt txt (idx + 2) + 191) % 256⟩
/-- Decimal digit characters of n, the model of printf with a %d field. -/
def decDigits (n : Nat) : List Nat := (Nat.toDigits 10 n).map Char.toNat
/-- tm_def_print from src/tm_def.c as the byte sequence written to stdout:
a header line of 1-based column numbers, then one line per state, the state
letter followed by the cells; each cell prints the written symbol in decimal
and the direction letter, then (non-directed form) the letter of the ROW
state i_state, or (directed form) the letter and arrow decoded from the row
state. -/
def tm_def_print_output (d : TmDef) (directed : Bool) : List Nat :=
  [32] ++
  ((List.range d.n_syms).flatMap (fun i => [32] ++ decDigits (i + 1) ++ [32, 32])) ++
  ((List.range d.n_states).flatMap (fun q =>
    [10, 65 + q, 32] ++
    ((List.range d.n_syms).flatMap (fun s =>
      let instr := tm_def_lookup d q s
      decDigits instr.sym ++ [if instr.dir = 0 then 76 else 82] ++
      (if directed then [65 + (q >>> 1), if q &&& 1 = 0 then 60 else 62, 32]
       else [65 + q, 32]))))) ++
  [10]
/-- Drop every whitespace byte (space, tab, newline, carriage return) and,
generously, the underscore row separator. -/
def stripWS (l : List Nat) : List Nat :=
  l.filter (fun c => ¬(c = 32 ∨ c = 9 ∨ c = 10 ∨ c = 13 ∨ c = 95))
/-! ## The stepping driver (src/tm_run.c)

struct tm_run_t holds a reference to the transition table, the optional RLE
and flat tapes, the step counter and the current state (the prev_delta field
is never assigned by the modelled code and is omitted). -/
structure TmRun where
  tmDef : TmDef
  rle_tape : Option RleTape
  flat_tape : Option FlatTape
  steps : Int
  state : Nat
/-- tm_run_init from src/tm_run.c: at least one tape must be requested; the
flat tape, when its length is positive, is created uninitialized (flatMem is
its malloc contents); the run starts at step 0 in state 0. -/
def tm_run_init (d : TmDef) (use_rle_tape : Bool) (flat_tape_len flat_tape_off : Int)
    (flatMem : List Nat) : Option TmRun :=
  if ¬use_rle_tape ∧ flat_tape_len ≤ 0 then none
  else
    let sym_bits := floor_log2 d.n_syms
    let rle := if use_rle_tape then some (rle_tape_init sym_bits) else none
    if flat_tape_len ≤ 0 then some ⟨d, rle, none, 0, 0⟩
    else
      match flat_tape_init flat_tape_len flat_tape_off sym_bits flatMem with
      | none => none
      | some ft => some ⟨d, rle, some ft, 0, 0⟩
/-- tm_run_halted from src/tm_run.c: the machine is halted when the current
state is at or past n_states. -/
def tm_run_halted (run : TmRun) : Bool := decide (run.state ≥ run.tmDef.n_states)
/-- tm_run_step from src/tm_run.c: read the symbol (from the RLE tape if
present, else the flat tape), look up the instruction, write it and move by
-1 for LEFT and +1 for RIGHT on every attached tape, set the state, increment
the step counter; the result flag reports whether the new state is halting.
Stepping a halted run or a run with no tape is an ERROR exit (none). -/
def tm_run_step (run : TmRun) : Option (Bool × TmRun) :=
  if tm_run_halted run then none
  else
    let in_sym? : Option Nat :=
      match run.rle_tape with
      | some r => some (rle_tape_read r)
      | none => run.flat_tape.map flat_tape_read
    match in_sym? with
    | none => none
    | some in_sym =>
      let instr := tm_def_lookup run.tmDef run.state in_sym
      let delta : Int := if instr.dir = 0 then -1 else 1
      let run' : TmRun :=
        { run with
          flat_tape := run.flat_tape.map
            (fun ft => flat_tape_move (flat_tape_write ft instr.sym) delta),
          rle_tape := run.rle_tape.map
            (fun r => rle_tape_move (rle_tape_write r instr.sym) delta),
          state := instr.state,
          steps := run.steps + 1 }
      some (decide (instr.state ≥ run.tmDef.n_states), run')
/-- The loop of tm_run_steps from src/tm_run.c, with explicit fuel: the local
counter steps starts at 0 and the loop body never changes it, exactly as in
the C; the loop exits with 1 when a step halts, with 0 when the entry test
steps < max_steps fails.  none means the fuel ran out with the loop still
running (or an ERROR exit of tm_run_step). -/
def tm_run_steps_loop (steps max_steps : Int) : Nat → TmRun → Option (Nat × TmRun)
  | 0, _ => none
  | fuel + 1, run =>
    if steps < max_steps then
      match tm_run_step run with
      | none => none
      | some (halt, run') =>
        if halt then some (1, run') else tm_run_steps_loop steps max_steps fuel run'
    else some (0, run)
/-- tm_run_steps from src/tm_run.c with explicit fuel. -/
def tm_run_steps (fuel : Nat) (run : TmRun) (max_steps : Int) : Option (Nat × TmRun) :=
  tm_run_steps_loop 0 max_steps fuel run
/-! ## The bitarray driver (src/bitarray/machine.c)

The machine points at a transition table and a packed bit tape.  The table
implementation (bitarray/table.c) is not among the sources; following the
contract documented in bitarray/table.h, table_lookup is modelled as the
function acts from (state, symbol) to the stored action.  The tape is the
packed word buffer of src/bitarray/tape.c (unitsRead / unitsWrite above).
In bitarray/table.h the direction encoding is DIR_RIGHT = 0, DIR_LEFT = 1,
and curr_pos has the 32-bit C type unsigned. -/
structure BAction where
  o_state : Nat
  o_sym : Nat
  o_dir : Nat
deriving DecidableEq
structure Machine where
  n_states : Nat
  sym_bits : Nat
  acts : Nat → Nat → BAction
  units : Nat → Nat
  curr_state : Nat
  curr_pos : Nat
  curr_step : Nat
/-- machine_step from src/bitarray/machine.c: an already halted machine
returns 1 untouched; otherwise the step is counted, the instruction is looked
up, and the state is set; if the new state is halting the function returns 1
at once, BEFORE the tape write and the head move, which are skipped. -/
def machine_step (m : Machine) : Nat × Machine :=
  if m.curr_state ≥ m.n_states then (1, m)
  else
    let m1 := { m with curr_step := m.curr_step + 1 }
    let i_sym := unitsRead m.sym_bits m.units m.curr_pos
    let action := m.acts m.curr_state i_sym
    let m2 := { m1 with curr_state := action.o_state }
    if action.o_state ≥ m.n_states then (1, m2)
    else
      let m3 := { m2 with units := unitsWrite m.sym_bits m.units m.curr_pos action.o_sym }
      (0, { m3 with curr_pos :=
        if action.o_dir = 0 then (m.curr_pos + 1) % 2 ^ 32
        else (m.curr_pos + 2 ^ 32 - 1) % 2 ^ 32 })
/-- machine_run from src/bitarray/machine.c, with explicit fuel: this loop
does increment its local counter and stops once it reaches max_steps. -/
def machine_run (max_steps : Int) : Nat → Int → Machine → Option (Nat × Machine)
  | 0, _, _ => none
  | fuel + 1, steps, m =>
    let (halted, m') := machine_step m
    if halted = 1 then some (1, m')
    else if steps + 1 ≥ max_steps then some (0, m')
    else machine_run max_steps fuel (steps + 1) m'
/-! ## The macro-machine encoder (src/mm_utils.c) -/
/-- The initial micro-symbol poke loop of mm_determine_instr: bit i of the
macro symbol is stored at buffer index scale - i, so the highest bit sits at
index 1 and the lowest at index scale; the two guard cells 0 and scale + 1
keep their malloc contents. -/
def mmPokeSyms (scale mm_in_sym : Nat) (ft : FlatTape) : FlatTape :=
  let syms' := (List.range scale).foldl
    (fun l i => l.set (scale - i) ((mm_in_sym >>> i) &&& 1)) ft.syms
  { ft with syms := syms' }
/-- The output-symbol loop of mm_determine_instr: mm_instr.sym is declared
without an initializer and only ever or-ed into, so the fold starts from the
indeterminate junk value the stack happened to hold; each or-assignment lands
in the 8-bit sym_t field. -/
def mmReadSyms (scale : Nat) (junk_sym : Nat) (ft : FlatTape) : Nat :=
  (List.range scale).foldl
    (fun a i => (a ||| (ft.syms.getD (scale - i) 0 <<< i)) % 256) junk_sym
/-- The main loop of mm_determine_instr, with explicit fuel.  Each iteration
checks the slow run for halt and for escape (for an entry direction RIGHT the
left escape is rel_pos <= -1 and the right escape rel_pos >= scale, mirrored
for LEFT), steps the slow run once, then runs the same checks and a step
TWICE on the fast run; in the fast run's right-escape check the C swaps the
two bounds (rel_pos >= 1 for entry RIGHT, rel_pos >= scale for entry LEFT).
Every exit returns the exit direction together with the slow run as it
happens to stand at that moment. -/
def mm_loop (scale : Nat) (dirBit : Nat) : Nat → TmRun → TmRun → Option (Nat × TmRun)
  | 0, _, _ => none
  | fuel + 1, slow, fast =>
    if tm_run_halted slow then some (1, slow)
    else match slow.flat_tape with
    | none => none
    | some sf =>
      if (dirBit = 0 ∧ sf.rel_pos ≤ -(scale : Int)) ∨ (dirBit = 1 ∧ sf.rel_pos ≤ -1) then
        some (0, slow)
      else if (dirBit = 1 ∧ sf.rel_pos ≥ (scale : Int)) ∨ (dirBit = 0 ∧ sf.rel_pos ≥ 1) then
        some (1, slow)
      else match tm_run_step slow with
      | none => none
      | some (_, slow') =>
        if tm_run_halted fast then some (1, slow')
        else match fast.flat_tape with
        | none => none
        | some ff =>
          if (dirBit = 0 ∧ ff.rel_pos ≤ -(scale : Int)) ∨ (dirBit = 1 ∧ ff.rel_pos ≤ -1) then
            some (0, slow')
          else if (dirBit = 1 ∧ ff.rel_pos ≥ 1) ∨ (dirBit = 0 ∧ ff.rel_pos ≥ (scale : Int)) then
            some (1, slow')
          else match tm_run_step fast with
          | none => none
          | some (_, fast') =>
            if tm_run_halted fast' then some (1, slow')
            else match fast'.flat_tape with
            | none => none
            | some ff' =>
              if (dirBit = 0 ∧ ff'.rel_pos ≤ -(scale : Int)) ∨ (dirBit = 1 ∧ ff'.rel_pos ≤ -1) then
                some (0, slow')
              else if (dirBit = 1 ∧ ff'.rel_pos ≥ 1) ∨ (dirBit = 0 ∧ ff'.rel_pos ≥ (scale : Int)) then
                some (1, slow')
              else match tm_run_step fast' with
              | none => none
              | some (_, fast'') => mm_loop scale dirBit fuel slow' fast''
/-- mm_determine_instr from src/mm_utils.c: set up the slow and fast runs on
flat tapes of length scale + 2 (malloc contents junkS and junkF), run the
loop, then assemble the macro instruction from the slow run at exit; the
output symbol field starts from the uninitialized stack value junk_sym. -/
def mm_determine_instr (d : TmDef) (scale : Nat) (mm_in_state mm_in_sym : Nat)
    (fuel : Nat) (junk_sym : Nat) (junkS junkF : List Nat) : Option TmInstr :=
  let mm_in_dir := mm_in_state &&& 1
  let tm_in_state := mm_in_state >>> 1
  let init_pos : Int := if mm_in_dir = 0 then scale else 1
  let tape_len : Int := (scale : Int) + 2
  match tm_run_init d false tape_len init_pos junkS with
  | none => none
  | some slow0 =>
    let slowFt := slow0.flat_tape.map (mmPokeSyms scale mm_in_sym)
    let slow := { slow0 with state := tm_in_state, flat_tape := slowFt }
    match tm_run_init d false tape_len init_pos junkF with
    | none => none
    | some fast0 =>
      let fastFt := fast0.flat_tape.map (mmPokeSyms scale mm_in_sym)
      let fast := { fast0 with state := tm_in_state, flat_tape := fastFt }
      match mm_loop scale mm_in_dir fuel slow fast with
      | none => none
      | some (mm_out_dir, slowF) =>
        match slowF.flat_tape with
        | none => none
        | some sf =>
          some ⟨mmReadSyms scale junk_sym sf, mm_out_dir,
            ((slowF.state <<< 1) ||| mm_out_dir) % 256⟩
/-- What the claim and the specification describe for one macro transition:
step the base machine on the length scale + 2 tape (head position in buffer
coordinates) until it halts or its head leaves the inner cells, position
strictly left of 1 meaning exit LEFT and strictly right of scale meaning exit
RIGHT.  Returns the exit direction (1 also on halt, where the direction does
not matter), the final base state and the final tape. -/
def mm_claim_loop (d : TmDef) (scale : Nat) :
    Nat → Nat → List Nat → Int → Option (Nat × Nat × List Nat)
  | 0, _, _, _ => none
  | fuel + 1, st, tape, pos =>
    if st ≥ d.n_states then some (1, st, tape)
    else if pos < 1 then some (0, st, tape)
    else if pos > (scale : Int) then some (1, st, tape)
    else
      let instr := tm_def_lookup d st (tape.getD pos.toNat 0)
      mm_claim_loop d scale fuel instr.state (tape.set pos.toNat instr.sym)
        (pos + (if instr.dir = 0 then -1 else 1))
/-- The macro instruction the claim describes: run mm_claim_loop from the
micro-state mm_in_state >> 1 at buffer position 1 (entry RIGHT) or scale
(entry LEFT) on the tape whose inner cell j holds bit scale - j of the macro
symbol, then pack bit i of the output symbol from inner cell scale - i and
the next macro state as (base_state << 1) | exit_dir. -/
def mm_claim_instr (d : TmDef) (scale : Nat) (mm_in_state mm_in_sym : Nat)
    (fuel : Nat) : Option TmInstr :=
  let mm_in_dir := mm_in_state &&& 1
  let pos0 : Int := if mm_in_dir = 0 then scale else 1
  let tape0 := (List.range (scale + 2)).map
    (fun j => if 1 ≤ j ∧ j ≤ scale then (mm_in_sym >>> (scale - j)) &&& 1 else 0)
  match mm_claim_loop d scale fuel (mm_in_state >>> 1) tape0 pos0 with
  | none => none
  | some (exit_dir, st, tape) =>
    some ⟨(List.range scale).foldl (fun a i => a ||| (tape.getD (scale - i) 0 <<< i)) 0,
      exit_dir, (st <<< 1) ||| exit_dir⟩
/-! ## Mixed tape comparison (src/tape_utils.c) -/
/-- The sentinel TAPES_EQUAL = INT_MIN. -/
def TAPES_EQUAL : Int := -(2 ^ 31)
/-- The sentinel TAPES_DIFF_HEAD = INT_MAX. -/
def TAPES_DIFF_HEAD : Int := 2 ^ 31 - 1
/-- Outcome of one comparison walk of tm_mixed_tape_cmp: an assert failure,
a mismatch at a buffer index, or success with the final buffer index. -/
inductive CmpWalk where
  | abort
  | fail (mem : Int)
  | ok (mem : Int)
deriving DecidableEq
/-- Walk cnt cells leftwards (decreasing mem) comparing the flat buffer
against the constant symbol s, with the assert mem >= 0 of the C code. -/
def cmpLeftRun (syms : List Nat) (s : Nat) : Nat → Int → CmpWalk
  | 0, mem => .ok mem
  | cnt + 1, mem =>
    if mem < 0 then .abort
    else if syms.getD mem.toNat 0 ≠ s then .fail mem
    else cmpLeftRun syms s cnt (mem - 1)
/-- Continue the leftward walk over the segments left of the current one. -/
def cmpLeftSegs (syms : List Nat) : List RleSeg → Int → CmpWalk
  | [], mem => .ok mem
  | seg :: rest, mem =>
    match cmpLeftRun syms seg.sym seg.len mem with
    | .ok mem' => cmpLeftSegs syms rest mem'
    | r => r
/-- Walk cnt cells rightwards (increasing mem) comparing the flat buffer
against the constant symbol s, with the assert mem < len of the C code. -/
def cmpRightRun (syms : List Nat) (s : Nat) : Nat → Int → CmpWalk
  | 0, mem => .ok mem
  | cnt + 1, mem =>
    if mem ≥ (syms.length : Int) then .abort
    else if syms.getD mem.toNat 0 ≠ s then .fail mem
    else cmpRightRun syms s cnt (mem + 1)
/-- Continue the rightward walk over the segments right of the current one. -/
def cmpRightSegs (syms : List Nat) : List RleSeg → Int → CmpWalk
  | [], mem => .ok mem
  | seg :: rest, mem =>
    match cmpRightRun syms seg.sym seg.len mem with
    | .ok mem' => cmpRightSegs syms rest mem'
    | r => r
/-- tm_mixed_tape_cmp from src/tape_utils.c: TAPES_DIFF_HEAD when the two
rel_pos disagree; otherwise compare the cells covered by the RLE segments
against the flat buffer, first from the head leftwards, then from the cell
right of the head rightwards, and return the relative position
mem - init_pos of the first mismatch; when every walk succeeds the result is
TAPES_EQUAL (flat cells outside the RLE-covered span are never examined).
An assert failure is none. -/
def tm_mixed_tape_cmp (rle : RleTape) (flat : FlatTape) : Option Int :=
  if rle.rel_pos ≠ flat.rel_pos then some TAPES_DIFF_HEAD
  else
    let mem0 := flat.rel_pos + flat.init_pos
    match cmpLeftRun flat.syms rle.curr.sym (rle.rle_pos + 1) mem0 with
    | .abort => none
    | .fail m => some (m - flat.init_pos)
    | .ok m1 =>
      match cmpLeftSegs flat.syms rle.leftSegs m1 with
      | .abort => none
      | .fail m => some (m - flat.init_pos)
      | .ok _ =>
        match cmpRightRun flat.syms rle.curr.sym (rle.curr.len - rle.rle_pos - 1)
            (mem0 + 1) with
        | .abort => none
        | .fail m => some (m - flat.init_pos)
        | .ok m2 =>
          match cmpRightSegs flat.syms rle.rightSegs m2 with
          | .abort => none
          | .fail m => some (m - flat.init_pos)
          | .ok _ => some TAPES_EQUAL
/-! ## Concrete machines, tapes and runs used by the claim theorems -/
/-- All-zero malloc contents. -/
def zeroFn : Nat → Nat := fun _ => 0
/-- Fallback transition table for getD. -/
def dummyTmDef : TmDef := ⟨0, 0, zeroFn, zeroFn, zeroFn⟩
/-- Fallback run for getD. -/
def dummyTmRun : TmRun := ⟨dummyTmDef, none, none, 0, 0⟩
/-- The two-state program in which A writes 1 and moves right into B, and B
writes 1 and moves right into the halt state; it halts after exactly 2 steps
from a blank tape. -/
def haltAt2Def : TmDef :=
  (tm_def_parse (strBytes "1RB---_1RZ---") zeroFn zeroFn zeroFn).getD dummyTmDef
/-- A run of haltAt2Def on a flat tape of length 4 with head offset 1 and
zeroed malloc contents. -/
def haltAt2Run : TmRun :=
  (tm_run_init haltAt2Def false 4 1 (List.replicate 4 0)).getD dummyTmRun
/-- The five tape operations move right, move right, write 1, move left,
write 1, starting from a fresh RLE tape. -/
def rleBugOps : List RleOp := [.move 1, .move 1, .write 1, .move (-1), .write 1]
/-- The tape state just before the last write of rleBugOps: chain (0,2)(1,1),
current segment (0,2) at offset 1. -/
def rleBeforeLastWrite : RleTape :=
  applyRleOps (rle_tape_init 1) [.move 1, .move 1, .write 1, .move (-1)]
/-- The base machine 1RB1RB_1RA1RA: both states write 1 and move right,
alternating between A and B forever. -/
def mmBaseDef : TmDef :=
  (tm_def_parse (strBytes "1RB1RB_1RA1RA") zeroFn zeroFn zeroFn).getD dummyTmDef
/-- C6 counterexample input: one state, one-bit symbols, the single
instruction writes symbol 1, moves right (bitarray encoding DIR_RIGHT = 0)
and enters the halt state 1; the packed tape is all zero and the head sits at
cell 5. -/
def haltWriteMachine : Machine :=
  ⟨1, 1, fun _ _ => ⟨1, 1, 0⟩, zeroFn, 0, 5, 0⟩
/-- A fresh blank RLE tape over one-bit symbols. -/
def rleBlank1 : RleTape := ⟨[], ⟨0, 1⟩, [], 0, 0, 1⟩
/-- A flat tape whose buffer holds a stray 1 at relative position -1, head at
relative position 0 (buffer index 1). -/
def flatStray : FlatTape := ⟨[1, 0], 0, 1, 1⟩
/-- The canonical two-symbol two-state program used for the round-trip
counterexample. -/
def roundTripDef : TmDef :=
  (tm_def_parse (strBytes "1RB1LA_0LA1RA") zeroFn zeroFn zeroFn).getD dummyTmDef
/-- The 26-state one-symbol program whose second row is the undefined cell. -/
def undef26Txt : List Nat := strBytes
  "0RA_---_0RA_0RA_0RA_0RA_0RA_0RA_0RA_0RA_0RA_0RA_0RA_0RA_0RA_0RA_0RA_0RA_0RA_0RA_0RA_0RA_0RA_0RA_0RA_0RA"
/-- The parsed 26-state table. -/
def undef26Def : TmDef := (tm_def_parse undef26Txt zeroFn zeroFn zeroFn).getD dummyTmDef
/-- A run of the 26-state table sitting in state 25 after taking the '---'
cell. -/
def undef26Run : TmRun := ⟨undef26Def, none, none, 1, 25⟩
/-- A zeroed flat tape of length 4 with head offset 1. -/
def flatBoth : FlatTape := ⟨[0, 0, 0, 0], 0, 1, 1⟩
/-- A run of haltAt2Def with both an RLE and a flat tape attached. -/
def runBoth : TmRun := ⟨haltAt2Def, some (rle_tape_init 1), some flatBoth, 0, 0⟩
/-- A one-state machine every cell of which is 1RA (write 1, move RIGHT, stay
in state A), given by total constant tables so that the looked-up instruction
is the same for every input symbol; it never halts.  On the cells tm_def_parse
fills this is the table of "1RA1RA". -/
def loopTotalDef : TmDef := ⟨2, 1, fun _ => 1, fun _ => 0, fun _ => mask64⟩
/-- A fresh run of loopTotalDef on an RLE tape alone, exactly as tm_run_init
builds it. -/
def loopRun : TmRun := ⟨loopTotalDef, some (rle_tape_init 1), none, 0, 0⟩

/-! ## Bit-level lemmas for the packed buffer and the C2 theorems -/
lemma shiftLeft_one_sub_one (k : Nat) : (1 <<< k) - 1 = 2 ^ k - 1 := by
  simp [Nat.shiftLeft_eq]
lemma testBit_bitmask (a b t : Nat) :
    (bitmask a b).testBit t = (decide (a ≤ t) && decide (t < b)) := by
  rw [bitmask, shiftLeft_one_sub_one, Nat.testBit_shiftLeft, Nat.testBit_two_pow_sub_one]
  have e1 : (decide (t ≥ a)) = (decide (a ≤ t)) := rfl
  rw [e1]
  by_cases h : a ≤ t
  · rw [decide_eq_true h]
    simp only [Bool.true_and]
    rw [decide_eq_decide]
    omega
  · rw [decide_eq_false h]
    simp only [Bool.false_and]
lemma bitmask_lt (a b : Nat) (hb : b ≤ 64) : bitmask a b < 2 ^ 64 := by
  apply Nat.lt_pow_two_of_testBit
  intro i hi
  rw [testBit_bitmask]
  simp only [Bool.and_eq_false_iff, decide_eq_false_iff_not]
  omega
lemma testBit_compl64 (m t : Nat) (hm : m < 2 ^ 64) :
    (compl64 m).testBit t = (decide (t < 64) && !(m.testBit t)) := by
  rw [compl64, mask64, Nat.testBit_xor, Nat.testBit_two_pow_sub_one]
  by_cases ht : t < 64
  · simp [ht]
  · have h2 : m < 2 ^ t :=
      lt_of_lt_of_le hm (Nat.pow_le_pow_right (by norm_num) (by omega))
    simp [ht, Nat.testBit_lt_two_pow h2]
lemma unitsRead_testBit (W : Nat) (hW2 : W ≤ 64)
    (blocks : Nat → Nat) (i t : Nat) :
    (unitsRead W blocks i).testBit t =
      (decide (t < W) && streamBit blocks (i * W + t)) := by
  rw [unitsRead]
  have hiW : (i + 1) * W = i * W + W := by ring
  simp only [hiW, BLOCK_BITS]
  set L := i * W with hL
  by_cases hone : L / 64 = (L + W) / 64
  · rw [if_pos hone]
    rw [Nat.testBit_shiftRight, Nat.testBit_and, testBit_bitmask]
    unfold streamBit
    by_cases ht : t < W
    · have h1 : (L + t) / 64 = L / 64 := by omega
      have h2 : (L + t) % 64 = L % 64 + t := by omega
      have h3 : L % 64 + t < (L + W) % 64 := by omega
      simp [h1, h2, h3, ht]
    · have h3 : ¬ (L % 64 + t < (L + W) % 64) := by omega
      simp [h3, ht]
  · rw [if_neg hone]
    have hu : (L + W) / 64 = L / 64 + 1 := by omega
    have hsh : (L + W) % 64 = L % 64 + W - 64 := by omega
    have hge : 64 ≤ L % 64 + W := by omega
    rw [Nat.testBit_or, Nat.testBit_shiftRight, Nat.testBit_and, testBit_bitmask,
      Nat.testBit_shiftLeft, Nat.testBit_and, testBit_bitmask]
    unfold streamBit
    by_cases ht1 : t < 64 - L % 64
    · -- bit comes from the low word
      have h1 : (L + t) / 64 = L / 64 := by omega
      have h2 : (L + t) % 64 = L % 64 + t := by omega
      have h3 : L % 64 + t < 64 := by omega
      have h4 : ¬ (t ≥ W - (L + W) % 64) := by omega
      have h5 : t < W := by omega
      simp [h1, h2, h3, h4, h5]
    · by_cases ht : t < W
      · -- bit comes from the high word
        have h1 : (L + t) / 64 = L / 64 + 1 := by omega
        have h2 : (L + t) % 64 = t - (W - (L + W) % 64) := by omega
        have h3 : ¬ (L % 64 + t < 64) := by omega
        have h4 : t ≥ W - (L + W) % 64 := by omega
        have h5 : t - (W - (L + W) % 64) < (L + W) % 64 := by omega
        simp [hu, h1, h2, h3, h4, h5, ht]
      · have h3 : ¬ (L % 64 + t < 64) := by omega
        have h5 : ¬ (t - (W - (L + W) % 64) < (L + W) % 64) := by omega
        simp [h3, h5, ht]
lemma unitsWrite_streamBit (W : Nat) (hW2 : W ≤ 64)
    (blocks : Nat → Nat) (i v : Nat) (hvW : v < 2 ^ W) (p : Nat) :
    streamBit (unitsWrite W blocks i v) p =
      if i * W ≤ p ∧ p < i * W + W then v.testBit (p - i * W)
      else streamBit blocks p := by
  rw [unitsWrite]
  have hiW : (i + 1) * W = i * W + W := by ring
  simp only [hiW, BLOCK_BITS]
  set L := i * W with hL
  by_cases hone : L / 64 = (L + W) / 64
  · rw [if_pos hone]
    have hsW : L % 64 + W ≤ 64 := by omega
    unfold streamBit
    simp only []
    by_cases hp : p / 64 = L / 64
    · rw [if_pos hp]
      rw [Nat.testBit_or, Nat.testBit_and,
        testBit_compl64 _ _ (bitmask_lt _ _ (by omega)), testBit_bitmask,
        Nat.testBit_shiftLeft]
      by_cases hin : L ≤ p ∧ p < L + W
      · rw [if_pos hin]
        have h1 : L % 64 ≤ p % 64 := by omega
        have h2 : p % 64 < (L + W) % 64 := by omega
        have h3 : p % 64 ≥ L % 64 := h1
        have h4 : p % 64 - L % 64 = p - L := by omega
        simp [h1, h2, h3, h4]
      · rw [if_neg hin]
        by_cases hlt : p % 64 < L % 64
        · have h1 : ¬ (L % 64 ≤ p % 64) := by omega
          have h2 : ¬ (p % 64 ≥ L % 64) := by omega
          have h3 : p % 64 < 64 := by omega
          simp [h1, h2, h3, hp]
        · have h2 : ¬ (p % 64 < (L + W) % 64) := by omega
          have h3 : p % 64 < 64 := by omega
          have h4 : v.testBit (p % 64 - L % 64) = false := by
            apply Nat.testBit_lt_two_pow
            have h5 : W ≤ p % 64 - L % 64 := by omega
            exact lt_of_lt_of_le hvW (Nat.pow_le_pow_right (by norm_num) h5)
          simp [h2, h3, h4, hp]
    · rw [if_neg hp]
      have hout : ¬ (L ≤ p ∧ p < L + W) := by omega
      rw [if_neg hout]
  · rw [if_neg hone]
    have hu : (L + W) / 64 = L / 64 + 1 := by omega
    have hsh : (L + W) % 64 = L % 64 + W - 64 := by omega
    have hge : 64 ≤ L % 64 + W := by omega
    unfold streamBit
    simp only []
    rw [hu]
    by_cases hp : p / 64 = L / 64
    · rw [if_pos hp]
      rw [Nat.testBit_or, Nat.testBit_and,
        testBit_compl64 _ _ (bitmask_lt _ _ (by omega)), testBit_bitmask,
        Nat.testBit_shiftLeft, Nat.testBit_and, testBit_bitmask]
      by_cases hin : L % 64 ≤ p % 64
      · have hcond : L ≤ p ∧ p < L + W := by omega
        rw [if_pos hcond]
        have h2 : p % 64 ≥ L % 64 := hin
        have h3 : p % 64 - L % 64 = p - L := by omega
        have h5 : p % 64 - L % 64 < 64 - L % 64 := by omega
        have h6 : p - L < 64 - L % 64 := by omega
        simp [hin, h2, h3, h5, h6, show p % 64 < 64 by omega]
      · have hcond : ¬ (L ≤ p ∧ p < L + W) := by omega
        rw [if_neg hcond]
        have h2 : ¬ (p % 64 ≥ L % 64) := by omega
        simp [hin, h2, hp, show p % 64 < 64 by omega]
    · by_cases hp2 : p / 64 = L / 64 + 1
      · rw [if_neg hp, if_pos hp2]
        rw [Nat.testBit_or, Nat.testBit_and,
          testBit_compl64 _ _ (bitmask_lt _ _ (by omega)), testBit_bitmask,
          Nat.testBit_shiftRight, Nat.testBit_and,
          testBit_compl64 _ _ (bitmask_lt _ _ (by omega)), testBit_bitmask]
        have hWsh : W - (L + W) % 64 = 64 - L % 64 := by omega
        rw [hWsh]
        by_cases hlt : p % 64 < (L + W) % 64
        · have hcond : L ≤ p ∧ p < L + W := by omega
          rw [if_pos hcond]
          have h3 : 64 - L % 64 + p % 64 < 64 := by omega
          have h4 : ¬ (64 - L % 64 + p % 64 < 64 - L % 64) := by omega
          have h5 : 64 - L % 64 + p % 64 = p - L := by omega
          have h7 : p - L < 64 := by omega
          have h8 : 64 ≤ p - L + L % 64 := by omega
          simp [hlt, h3, h4, h5, h7, h8, show (0:Nat) ≤ p % 64 by omega]
        · have hcond : ¬ (L ≤ p ∧ p < L + W) := by omega
          rw [if_neg hcond]
          by_cases hps : p % 64 < L % 64
          · have h3 : 64 - L % 64 + p % 64 < 64 := by omega
            have h4 : ¬ (64 - L % 64 + p % 64 < 64 - L % 64) := by omega
            have h6 : v.testBit (64 - L % 64 + p % 64) = false := by
              apply Nat.testBit_lt_two_pow
              have h7 : W ≤ 64 - L % 64 + p % 64 := by omega
              exact lt_of_lt_of_le hvW (Nat.pow_le_pow_right (by norm_num) h7)
            simp [hlt, h3, h4, h6, hp2, show p % 64 < 64 by omega]
          · have h3 : ¬ (64 - L % 64 + p % 64 < 64) := by omega
            simp [hlt, h3, hp2, show p % 64 < 64 by omega]
      · rw [if_neg hp, if_neg hp2]
        have hout : ¬ (L ≤ p ∧ p < L + W) := by omega
        rw [if_neg hout]
lemma mask64_shr_and_one (b : Nat) (hb : b < 64) : (mask64 >>> b) &&& 1 = 1 := by
  have h : mask64.testBit b = true := by
    rw [mask64, Nat.testBit_two_pow_sub_one]
    exact decide_eq_true hb
  rw [Nat.testBit_to_div_mod] at h
  rw [Nat.and_one_is_mod, Nat.shiftRight_eq_div_pow]
  exact of_decide_eq_true h
lemma loop_lookup (s : Nat) : tm_def_lookup loopTotalDef 0 s = ⟨1, 1, 0⟩ := by
  show (⟨1, (mask64 >>> ((0 * 2 + s) % 64)) &&& 1, 0⟩ : TmInstr) = ⟨1, 1, 0⟩
  rw [mask64_shr_and_one _ (by omega)]
lemma loopRun_step (r : RleTape) (st : Int) :
    tm_run_step ⟨loopTotalDef, some r, none, st, 0⟩ = some (false,
      ⟨loopTotalDef, some (rle_tape_move (rle_tape_write r 1) 1), none, st + 1, 0⟩) := by
  have h := loop_lookup (rle_tape_read r)
  show some (decide ((tm_def_lookup loopTotalDef 0 (rle_tape_read r)).state ≥
        loopTotalDef.n_states),
      (⟨loopTotalDef,
        some (rle_tape_move
          (rle_tape_write r (tm_def_lookup loopTotalDef 0 (rle_tape_read r)).sym)
          (if (tm_def_lookup loopTotalDef 0 (rle_tape_read r)).dir = 0 then (-1 : Int) else 1)),
        none, st + 1,
        (tm_def_lookup loopTotalDef 0 (rle_tape_read r)).state⟩ : TmRun)) =
    some (false, ⟨loopTotalDef, some (rle_tape_move (rle_tape_write r 1) 1), none, st + 1, 0⟩)
  rw [h]
  rfl
lemma tm_run_steps_loop_never : ∀ (fuel : Nat) (r : RleTape) (st : Int),
    tm_run_steps_loop 0 1 fuel ⟨loopTotalDef, some r, none, st, 0⟩ = none := by
  intro fuel
  induction fuel with
  | zero => intro r st; rfl
  | succ f ih =>
    intro r st
    rw [tm_run_steps_loop, if_pos (by norm_num : (0 : Int) < 1), loopRun_step r st]
    exact ih (rle_tape_move (rle_tape_write r 1) 1) (st + 1)
/-- C1: the claim says tm_run_steps(run, max_steps) performs at most
max_steps calls to tm_run_step and returns 1 exactly when the machine halted
within this budget.  The loop of tm_run_steps never increments its local
counter steps, so the budget test steps < max_steps never turns false: on a
machine that halts at step 2, a call with max_steps = 1 performs 2 steps and
returns 1 (halted) where the claim requires 1 step and the return value 0;
only max_steps <= 0 returns 0 without stepping.  Moreover on the never-halting
machine loopRun (built by tm_run_init from loopTotalDef) the call with
max_steps = 1 never returns: for every fuel the loop is still running. -/
theorem tm_run_steps_ignores_budget :
    (tm_run_steps 5 haltAt2Run 1).map (fun p => (p.1, p.2.steps)) = some (1, 2) ∧
    (tm_run_steps 5 haltAt2Run 2).map (fun p => (p.1, p.2.steps)) = some (1, 2) ∧
    (tm_run_steps 5 haltAt2Run 0).map (fun p => (p.1, p.2.steps)) = some (0, 0) ∧
    tm_run_init loopTotalDef true 0 0 [] = some loopRun ∧
    ∀ fuel : Nat, tm_run_steps fuel loopRun 1 = none := by
  refine ⟨by decide, by decide, by decide, rfl, fun fuel => ?_⟩
  exact tm_run_steps_loop_never fuel (rle_tape_init 1) 0
/-- C3: the claim says that after any operation sequence no two adjacent RLE
segments share a symbol.  After the five operations of rleBugOps the chain is
(0,1)(1,1)(1,1): the final write happens at the last offset of the current
segment with a right neighbor of the written symbol, the right-extension
branch of rle_tape_write is dead (its test rle_pos == orig->len never holds),
and the split leaves two adjacent segments with symbol 1. -/
theorem rle_adjacent_duplicate_reachable :
    adjOk (rleSegList (applyRleOps (rle_tape_init 1) rleBugOps)) = false ∧
    rleSegList (applyRleOps (rle_tape_init 1) rleBugOps) =
      [⟨0, 1⟩, ⟨1, 1⟩, ⟨1, 1⟩] ∧
    lensOk (rleSegList (applyRleOps (rle_tape_init 1) rleBugOps)) = true := by
  decide
/-- C4: the claim says a write of s at offset p = C.len - 1 of the current
segment C with a right neighbor of symbol s extends that neighbor by 1, makes
it current at its left end and shrinks C.  In the C code the branch tests
rle_pos == orig->len instead of orig->len - 1, so it never fires: on the
concrete tape (0,2)(1,1) with the head at offset 1 of (0,2), writing 1 splits
instead, producing (0,1)(1,1)(1,1) with a fresh singleton as the current
segment and the right neighbor still of length 1. -/
theorem rle_write_right_extension_never_taken :
    rleBeforeLastWrite.curr = ⟨0, 2⟩ ∧
    rleBeforeLastWrite.rle_pos = rleBeforeLastWrite.curr.len - 1 ∧
    rleBeforeLastWrite.rightSegs = [⟨1, 1⟩] ∧
    rleSegList (rle_tape_write rleBeforeLastWrite 1) = [⟨0, 1⟩, ⟨1, 1⟩, ⟨1, 1⟩] ∧
    (rle_tape_write rleBeforeLastWrite 1).curr = ⟨1, 1⟩ ∧
    ¬ ((rle_tape_write rleBeforeLastWrite 1).curr = ⟨1, 2⟩ ∧
       rleSegList (rle_tape_write rleBeforeLastWrite 1) = [⟨0, 1⟩, ⟨1, 2⟩]) := by
  decide
/-- C5: the claim says every tape cell never written reads 0, and in
particular every position of a fresh flat tape.  flat_tape_init allocates the
buffer with malloc and never zeroes it (its own comment says "filled with
zeros"), so with allocator contents [5, 0] the very first read returns 5. -/
theorem flat_tape_init_reads_junk :
    (flat_tape_init 2 0 1 [5, 0]).map flat_tape_read = some 5 ∧ (5 : Nat) ≠ 0 ∧
    (flat_tape_init 2 0 1 [5, 0]).map (fun t => flatAt t 0) = some 5 := by
  decide
/-- C6 fails as stated on machine_step (src/bitarray/machine.c): on the step
whose looked-up action enters the halt state, the step is counted and the
state is set, but the write of the action's symbol 1 and the head move are
skipped: the tape still reads 0 at the head and the head stays at cell 5. -/
theorem machine_step_halting_step_skips_write :
    haltWriteMachine.curr_state < haltWriteMachine.n_states ∧
    (haltWriteMachine.acts 0 0).o_sym = 1 ∧
    (haltWriteMachine.acts 0 0).o_state = 1 ∧
    (machine_step haltWriteMachine).1 = 1 ∧
    (machine_step haltWriteMachine).2.curr_step = 1 ∧
    (machine_step haltWriteMachine).2.curr_state = 1 ∧
    unitsRead 1 (machine_step haltWriteMachine).2.units 5 = 0 ∧
    (machine_step haltWriteMachine).2.curr_pos = 5 := by
  decide
/-- C7: the claim says the recorded macro instruction comes from running the
base machine until it halts or leaves the k inner cells.  On the base machine
mmBaseDef with scale 2, macro state 1 (base state A, entry RIGHT) and macro
symbol 0, the specification run escapes RIGHT after 2 micro-steps in base
state A, giving next macro state (0 << 1) | 1 = 1 and output symbol 3; the C
code instead stops as soon as the fast shadow run trips its swapped
right-escape test rel_pos >= 1, recording the slow run after a single step:
next macro state (1 << 1) | 1 = 3 and output symbol 2.  The output symbol
field is or-ed into without initialization, so stack junk 4 leaks into it. -/
theorem mm_determine_instr_stops_early :
    (mm_determine_instr mmBaseDef 2 1 0 32 0 (List.replicate 4 0)
        (List.replicate 4 0)).map (fun i => (i.sym, i.dir, i.state)) =
      some (2, 1, 3) ∧
    (mm_claim_instr mmBaseDef 2 1 0 32).map (fun i => (i.sym, i.dir, i.state)) =
      some (3, 1, 1) ∧
    (mm_determine_instr mmBaseDef 2 1 0 32 4 (List.replicate 4 0)
        (List.replicate 4 0)).map (fun i => i.sym) = some 6 ∧
    (3 : Nat) ≠ 1 := by
  decide
/-- C8: the claim says tm_mixed_tape_cmp returns EQUAL only when the two
tapes denote the same infinite tape, with flat cells outside the RLE-covered
region compared against 0.  The code only walks the cells covered by RLE
segments (the verification of the remaining flat cells promised by its
comment is absent), so with equal head positions it returns TAPES_EQUAL on a
pair that differs at relative position -1: the flat tape holds 1 there while
the blank RLE tape denotes 0. -/
theorem tm_mixed_tape_cmp_misses_stray_cell :
    tm_mixed_tape_cmp rleBlank1 flatStray = some TAPES_EQUAL ∧
    rleBlank1.rel_pos = flatStray.rel_pos ∧
    flatAt flatStray (-1) = 1 ∧ rleAt rleBlank1 (-1) = 0 := by
  decide
/-- C9 counterexample: printing the table parsed from 1RB1LA_0LA1RA does not
reproduce the text even after discarding all whitespace and the row
separators: the printed output keeps a numeric header, row labels, and shows
the row state letter in place of every next state. -/
theorem tm_def_print_no_roundtrip :
    stripWS (tm_def_print_output roundTripDef false) ≠
      stripWS (strBytes "1RB1LA_0LA1RA") := by
  decide
/-! ## Store and lookup lemmas for the packed transition table -/
lemma shiftRight_and_one (x b : Nat) :
    (x >>> b) &&& 1 = if x.testBit b then 1 else 0 := by
  rw [Nat.and_one_is_mod, Nat.shiftRight_eq_div_pow, Nat.testBit_to_div_mod]
  rcases Nat.mod_two_eq_zero_or_one (x / 2 ^ b) with h | h <;> simp [h]
lemma gridIdx_inj (n q s q' s' : Nat) (hs : s < n) (hs' : s' < n)
    (hne : ¬(q' = q ∧ s' = s)) : q' * n + s' ≠ q * n + s := by
  intro he
  rcases Nat.lt_trichotomy q' q with h | h | h
  · have h3 : (q' + 1) * n ≤ q * n := Nat.mul_le_mul_right n (by omega)
    rw [add_mul, one_mul] at h3
    omega
  · subst h; omega
  · have h3 : (q + 1) * n ≤ q' * n := Nat.mul_le_mul_right n (by omega)
    rw [add_mul, one_mul] at h3
    omega
lemma tm_def_store_fields (d : TmDef) (q s : Nat) (instr : TmInstr) :
    (tm_def_store d q s instr).n_syms = d.n_syms ∧
    (tm_def_store d q s instr).n_states = d.n_states := by
  constructor <;> rfl
lemma one_shiftLeft (b : Nat) : (1 : Nat) <<< b = 2 ^ b := by
  rw [Nat.shiftLeft_eq, one_mul]
lemma dir_word_self_set (w b : Nat) : ((w ||| (1 <<< b)) >>> b) &&& 1 = 1 := by
  rw [shiftRight_and_one, Nat.testBit_or, one_shiftLeft, Nat.testBit_two_pow_self]
  simp
lemma dir_word_self_clear (w b : Nat) (hb : b < 64) :
    ((w &&& compl64 (1 <<< b)) >>> b) &&& 1 = 0 := by
  rw [shiftRight_and_one, Nat.testBit_and, one_shiftLeft,
    testBit_compl64 _ _ (Nat.pow_lt_pow_right Nat.one_lt_two hb),
    Nat.testBit_two_pow_self]
  simp
lemma dir_word_other_set (w b b' : Nat) (hne : b ≠ b') :
    ((w ||| (1 <<< b)) >>> b') &&& 1 = (w >>> b') &&& 1 := by
  rw [shiftRight_and_one, shiftRight_and_one, Nat.testBit_or, one_shiftLeft,
    Nat.testBit_two_pow_of_ne hne]
  simp
lemma dir_word_other_clear (w b b' : Nat) (hb : b < 64) (hb' : b' < 64) (hne : b ≠ b') :
    ((w &&& compl64 (1 <<< b)) >>> b') &&& 1 = (w >>> b') &&& 1 := by
  rw [shiftRight_and_one, shiftRight_and_one, Nat.testBit_and, one_shiftLeft,
    testBit_compl64 _ _ (Nat.pow_lt_pow_right Nat.one_lt_two hb),
    Nat.testBit_two_pow_of_ne hne]
  simp [hb']
lemma tm_def_lookup_store_self (d : TmDef) (q s : Nat) (instr : TmInstr)
    (hdir : instr.dir = 0 ∨ instr.dir = 1) :
    tm_def_lookup (tm_def_store d q s instr) q s = instr := by
  unfold tm_def_lookup tm_def_store
  simp only [if_true]
  have hb : (q * d.n_syms + s) % 64 < 64 := Nat.mod_lt _ (by norm_num)
  rcases hdir with h0 | h1
  · rw [if_pos h0, dir_word_self_clear _ _ hb]
    rcases instr with ⟨a, b, c⟩
    simp only [] at h0
    subst h0
    rfl
  · rw [if_neg (by omega : ¬ instr.dir = 0), dir_word_self_set]
    rcases instr with ⟨a, b, c⟩
    simp only [] at h1
    subst h1
    rfl
lemma tm_def_lookup_store_other (d : TmDef) (q s q' s' : Nat)
    (hs : s < d.n_syms) (hs' : s' < d.n_syms) (hne : ¬(q' = q ∧ s' = s))
    (instr : TmInstr) :
    tm_def_lookup (tm_def_store d q s instr) q' s' = tm_def_lookup d q' s' := by
  have hidx : q' * d.n_syms + s' ≠ q * d.n_syms + s :=
    gridIdx_inj d.n_syms q s q' s' hs hs' hne
  unfold tm_def_lookup tm_def_store
  simp only []
  rw [if_neg hidx, if_neg hidx]
  by_cases hf : (q' * d.n_syms + s') / 64 = (q * d.n_syms + s) / 64
  · rw [if_pos hf]
    have hb : (q * d.n_syms + s) % 64 < 64 := Nat.mod_lt _ (by norm_num)
    have hb' : (q' * d.n_syms + s') % 64 < 64 := Nat.mod_lt _ (by norm_num)
    have hbits : (q * d.n_syms + s) % 64 ≠ (q' * d.n_syms + s') % 64 := by omega
    by_cases h0 : instr.dir = 0
    · rw [if_pos h0, hf, dir_word_other_clear _ _ _ hb hb' hbits]
    · rw [if_neg h0, hf, dir_word_other_set _ _ _ hbits]
  · rw [if_neg hf]
lemma decodeCell_dir (txt : List Nat) (N q s : Nat) :
    (decodeCell txt N q s).dir = 0 ∨ (decodeCell txt N q s).dir = 1 := by
  simp only [decodeCell]
  split_ifs <;> simp
lemma parseCell_eq (txt : List Nat) (N : Nat) (d d'' : TmDef) (q s : Nat)
    (h : parseCell txt N d q s = some d'') :
    d'' = tm_def_store d q s (decodeCell txt N q s) := by
  unfold parseCell at h
  unfold decodeCell
  by_cases h1 : charAt txt (cellIdx N q s) < 48 ∨ 48 + N ≤ charAt txt (cellIdx N q s)
  · rw [if_pos h1] at h
    by_cases h2 : charAt txt (cellIdx N q s) = 45 ∧
        charAt txt (cellIdx N q s + 1) = 45 ∧ charAt txt (cellIdx N q s + 2) = 45
    · rw [if_pos h2] at h
      rw [if_pos h2]
      exact (Option.some.inj h).symm
    · rw [if_neg h2] at h
      exact absurd h (by simp)
  · rw [if_neg h1] at h
    have hd : ¬ (charAt txt (cellIdx N q s) = 45 ∧
        charAt txt (cellIdx N q s + 1) = 45 ∧ charAt txt (cellIdx N q s + 2) = 45) := by
      intro hc
      omega
    rw [if_neg hd]
    by_cases h3 : charAt txt (cellIdx N q s + 1) = 76 ∨ charAt txt (cellIdx N q s + 1) = 82
    · rw [if_pos h3] at h
      exact (Option.some.inj h).symm
    · rw [if_neg h3] at h
      exact absurd h (by simp)
lemma parseRowCells_spec (txt : List Nat) (N q : Nat) :
    ∀ (slist : List Nat) (d d' : TmDef), d.n_syms = N → slist.Nodup →
    (∀ x ∈ slist, x < N) →
    parseRowCells txt N q slist d = some d' →
    d'.n_syms = N ∧ d'.n_states = d.n_states ∧
    (∀ s' ∈ slist, tm_def_lookup d' q s' = decodeCell txt N q s') ∧
    (∀ q' s', s' < N → ¬(q' = q ∧ s' ∈ slist) →
        tm_def_lookup d' q' s' = tm_def_lookup d q' s') := by
  intro slist
  induction slist with
  | nil =>
    intro d d' hdN _ _ h
    have hd : d' = d := (Option.some.inj h).symm
    subst hd
    exact ⟨hdN, rfl, by simp, fun _ _ _ _ => rfl⟩
  | cons s rest ih =>
    intro d d' hdN hnd hbound h
    rw [parseRowCells] at h
    rcases hc : parseCell txt N d q s with _ | d1
    · rw [hc] at h; exact absurd h (by simp)
    · rw [hc] at h
      have hd1 : d1 = tm_def_store d q s (decodeCell txt N q s) :=
        parseCell_eq txt N d d1 q s hc
      have hd1N : d1.n_syms = N := by rw [hd1]; exact hdN ▸ rfl
      have hd1st : d1.n_states = d.n_states := by rw [hd1]; rfl
      have hsN : s < N := hbound s (by simp)
      obtain ⟨hN', hst', hrow, hpres⟩ := ih d1 d' hd1N
        (List.nodup_cons.mp hnd).2 (fun x hx => hbound x (by simp [hx])) h
      refine ⟨hN', by rw [hst', hd1st], ?_, ?_⟩
      · intro s' hs'
        rcases List.mem_cons.mp hs' with he | hm
        · subst he
          have hnotin : ¬(q = q ∧ s' ∈ rest) := by
            intro hc2
            exact (List.nodup_cons.mp hnd).1 hc2.2
          rw [hpres q s' hsN hnotin, hd1]
          exact tm_def_lookup_store_self d q s' (decodeCell txt N q s')
            (decodeCell_dir txt N q s')
        · exact hrow s' hm
      · intro q' s' hs'N hnot
        have hn1 : ¬(q' = q ∧ s' ∈ rest) := by
          intro hc2
          exact hnot ⟨hc2.1, by simp [hc2.2]⟩
        have hn2 : ¬(q' = q ∧ s' = s) := by
          intro hc2
          exact hnot ⟨hc2.1, by simp [hc2.2]⟩
        rw [hpres q' s' hs'N hn1, hd1]
        exact tm_def_lookup_store_other d q s q' s'
          (by rw [hdN]; exact hsN) (by rw [hdN]; exact hs'N) hn2 _
lemma parseRows_spec (txt : List Nat) (N nst : Nat) :
    ∀ (qlist : List Nat) (d d' : TmDef), d.n_syms = N → qlist.Nodup →
    parseRows txt N nst qlist d = some d' →
    d'.n_syms = N ∧ d'.n_states = d.n_states ∧
    (∀ q ∈ qlist, ∀ s, s < N → tm_def_lookup d' q s = decodeCell txt N q s) ∧
    (∀ q' s', s' < N → q' ∉ qlist →
        tm_def_lookup d' q' s' = tm_def_lookup d q' s') := by
  intro qlist
  induction qlist with
  | nil =>
    intro d d' hdN _ h
    have hd : d' = d := (Option.some.inj h).symm
    subst hd
    exact ⟨hdN, rfl, by simp, fun _ _ _ _ => rfl⟩
  | cons q rest ih =>
    intro d d' hdN hnd h
    rw [parseRows] at h
    rcases hc : parseRowCells txt N q (List.range N) d with _ | d1
    · rw [hc] at h; exact absurd h (by simp)
    · rw [hc] at h
      simp only [] at h
      by_cases hterm : rowTermOk txt N nst q = true
      · rw [if_pos hterm] at h
        obtain ⟨hN1, hst1, hrow1, hpres1⟩ := parseRowCells_spec txt N q
          (List.range N) d d1 hdN (List.nodup_range N) (fun x hx => List.mem_range.mp hx) hc
        obtain ⟨hN', hst', hrows, hpres⟩ := ih d1 d' hN1
          (List.nodup_cons.mp hnd).2 h
        refine ⟨hN', by rw [hst', hst1], ?_, ?_⟩
        · intro q0 hq0 s hsN
          rcases List.mem_cons.mp hq0 with he | hm
          · subst he
            have hq0nr : q0 ∉ rest := (List.nodup_cons.mp hnd).1
            rw [hpres q0 s hsN hq0nr]
            exact hrow1 s (List.mem_range.mpr hsN)
          · exact hrows q0 hm s hsN
        · intro q' s' hs'N hq'
          have hq'r : q' ∉ rest := fun hx => hq' (by simp [hx])
          have hq'q : ¬(q' = q ∧ s' ∈ List.range N) := by
            intro hc2
            exact hq' (by simp [hc2.1])
          rw [hpres q' s' hs'N hq'r]
          exact hpres1 q' s' hs'N hq'q
      · rw [if_neg hterm] at h
        exact absurd h (by simp)
/-- Parse fidelity: a table returned by tm_def_parse answers every in-range
lookup with the instruction decoded from the corresponding three-character
cell of the text, whatever the malloc junk the tables started from. -/
lemma tm_def_parse_lookup (txt : List Nat) (jsym jstate jdir : Nat → Nat) (d : TmDef)
    (hp : tm_def_parse txt jsym jstate jdir = some d) (q s : Nat)
    (hq : q < d.n_states) (hs : s < d.n_syms) :
    tm_def_lookup d q s = decodeCell txt d.n_syms q s := by
  rw [tm_def_parse] at hp
  by_cases h3 : (txt.takeWhile (fun c => ¬(c = 0 ∨ c = 95))).length % 3 ≠ 0
  · rw [if_pos h3] at hp
    exact absurd hp (by simp)
  · rw [if_neg h3] at hp
    simp only [] at hp
    rw [tm_def_init] at hp
    by_cases h4 : 0 < (txt.takeWhile (fun c => ¬(c = 0 ∨ c = 95))).length / 3 ∧
        0 < (txt.length + 1) / ((txt.takeWhile (fun c => ¬(c = 0 ∨ c = 95))).length / 3 * 3 + 1)
    · rw [if_pos h4] at hp
      simp only [] at hp
      obtain ⟨hN', hst', hrows, _⟩ := parseRows_spec txt
        ((txt.takeWhile (fun c => ¬(c = 0 ∨ c = 95))).length / 3)
        ((txt.length + 1) / ((txt.takeWhile (fun c => ¬(c = 0 ∨ c = 95))).length / 3 * 3 + 1))
        (List.range ((txt.length + 1) /
          ((txt.takeWhile (fun c => ¬(c = 0 ∨ c = 95))).length / 3 * 3 + 1)))
        _ d rfl (List.nodup_range _) hp
      have hqr : q ∈ List.range ((txt.length + 1) /
          ((txt.takeWhile (fun c => ¬(c = 0 ∨ c = 95))).length / 3 * 3 + 1)) := by
        apply List.mem_range.mpr
        have : d.n_states = (txt.length + 1) /
            ((txt.takeWhile (fun c => ¬(c = 0 ∨ c = 95))).length / 3 * 3 + 1) := by
          rw [hst']
        omega
      have := hrows q hqr s (by rw [hN'] at hs; exact hs)
      rw [hN']
      exact this
    · rw [if_neg h4] at hp
      exact absurd hp (by simp)
/-- C9 (amended): parsing is faithful, printing is not its inverse.  Left:
every in-range lookup of a parsed table returns exactly the instruction
encoded in the corresponding cell of the text.  Right: tm_def_print emits a
tabular rendering that does not depend on the next-state table at all (the
row state is printed in its place), so print cannot reproduce the program
text. -/
theorem tm_def_parse_faithful_print_lossy :
    (∀ (txt : List Nat) (jsym jstate jdir : Nat → Nat) (d : TmDef) (q s : Nat),
      tm_def_parse txt jsym jstate jdir = some d → q < d.n_states → s < d.n_syms →
      tm_def_lookup d q s = decodeCell txt d.n_syms q s) ∧
    (∀ (d : TmDef) (f : Nat → Nat) (directed : Bool),
      tm_def_print_output { d with state_tab := f } directed =
        tm_def_print_output d directed) :=
  ⟨fun txt jsym jstate jdir d q s hp hq hs =>
    tm_def_parse_lookup txt jsym jstate jdir d hp q s hq hs,
  fun _ _ _ => rfl⟩
/-- Witness for the C9 theorem at the concrete program 1RB1LA_0LA1RA: cell
(1, 0) of the parsed table holds the instruction encoded by the text, namely
write 0, move LEFT, next state A. -/
theorem tm_def_parse_faithful_witness :
    tm_def_lookup roundTripDef 1 0 =
      decodeCell (strBytes "1RB1LA_0LA1RA") roundTripDef.n_syms 1 0 ∧
    tm_def_lookup roundTripDef 1 0 = ⟨0, 0, 0⟩ := by
  constructor
  · exact tm_def_parse_faithful_print_lossy.1 (strBytes "1RB1LA_0LA1RA")
      zeroFn zeroFn zeroFn roundTripDef 1 0 rfl (by decide) (by decide)
  · decide
/-- C10: a '---' cell of a parsed table stores the fixed sentinel next state
STATE_UNDEF = 'Z' - 'A' = 25, and since the halt test of the driver is
current_state >= n_states, entering such a cell halts the machine exactly
when the table has at most 25 states; in a 26-state table the cell
transitions to the valid state 25 instead. -/
theorem undef_cell_stores_25_halt_iff (txt : List Nat) (jsym jstate jdir : Nat → Nat)
    (d : TmDef) (q s : Nat)
    (hp : tm_def_parse txt jsym jstate jdir = some d)
    (hq : q < d.n_states) (hs : s < d.n_syms)
    (h1 : charAt txt (cellIdx d.n_syms q s) = 45)
    (h2 : charAt txt (cellIdx d.n_syms q s + 1) = 45)
    (h3 : charAt txt (cellIdx d.n_syms q s + 2) = 45) :
    (tm_def_lookup d q s).state = 25 ∧
    (∀ run : TmRun, run.tmDef = d → run.state = (tm_def_lookup d q s).state →
      (tm_run_halted run = true ↔ d.n_states ≤ 25)) := by
  have hdec : tm_def_lookup d q s = decodeCell txt d.n_syms q s :=
    tm_def_parse_lookup txt jsym jstate jdir d hp q s hq hs
  have hstate : (tm_def_lookup d q s).state = 25 := by
    rw [hdec]
    simp only [decodeCell]
    rw [if_pos ⟨h1, h2, h3⟩]
  refine ⟨hstate, ?_⟩
  intro run hrd hrs
  rw [tm_run_halted, hrd, hrs, hstate]
  rw [decide_eq_true_iff]
/-- Witness for the C10 theorem: in the parsed 26-state table the '---' cell
of row B stores next state 25, and a run of that table in state 25 is NOT
halted, because 25 < 26. -/
theorem undef_cell_stores_25_witness :
    (tm_def_lookup undef26Def 1 0).state = 25 ∧
    tm_run_halted undef26Run = false ∧ undef26Def.n_states = 26 := by
  have h := undef_cell_stores_25_halt_iff undef26Txt zeroFn zeroFn zeroFn
    undef26Def 1 0 rfl (by decide) (by decide) (by decide) (by decide) (by decide)
  refine ⟨h.1, ?_, by decide⟩
  have h2 := h.2 undef26Run rfl (by rw [h.1]; decide)
  have h3 : ¬ tm_run_halted undef26Run = true := by
    intro hy
    have := h2.mp hy
    revert this
    decide
  exact Bool.eq_false_iff.mpr h3
/-! ## Effect lemmas for the tape operations -/
lemma rle_tape_write_read_back (t : RleTape) (s : Nat) :
    rle_tape_read (rle_tape_write t s) = s := by
  rcases t with ⟨ls, c, rs, pos, rel, sb⟩
  rw [rle_tape_write]
  simp only []
  by_cases h1 : c.sym = s
  · rw [if_pos h1]
    exact h1
  · rw [if_neg h1]
    by_cases h2 : pos = 0 ∧ ls ≠ [] ∧ (ls.headD ⟨0, 0⟩).sym = s
    · rw [if_pos h2]
      cases ls with
      | nil => exact absurd rfl h2.2.1
      | cons l ls' =>
        have hls : l.sym = s := h2.2.2
        by_cases h3 : c.len - 1 = 0 <;> simp [h3, rle_tape_read, hls]
    · rw [if_neg h2]
      by_cases h4 : pos = c.len ∧ rs ≠ [] ∧ (rs.headD ⟨0, 0⟩).sym = s
      · rw [if_pos h4]
        cases rs with
        | nil => exact absurd rfl h4.2.1
        | cons r rs' =>
          have hrs : r.sym = s := h4.2.2
          by_cases h3 : c.len - 1 = 0 <;> simp [h3, rle_tape_read, hrs]
      · rw [if_neg h4]
        rfl
lemma rle_tape_write_rel (t : RleTape) (s : Nat) :
    (rle_tape_write t s).rel_pos = t.rel_pos := by
  rcases t with ⟨ls, c, rs, pos, rel, sb⟩
  rw [rle_tape_write]
  simp only []
  by_cases h1 : c.sym = s
  · rw [if_pos h1]
  · rw [if_neg h1]
    by_cases h2 : pos = 0 ∧ ls ≠ [] ∧ (ls.headD ⟨0, 0⟩).sym = s
    · rw [if_pos h2]
      cases ls with
      | nil => exact absurd rfl h2.2.1
      | cons l ls' =>
        by_cases h3 : c.len - 1 = 0 <;> simp [h3]
    · rw [if_neg h2]
      by_cases h4 : pos = c.len ∧ rs ≠ [] ∧ (rs.headD ⟨0, 0⟩).sym = s
      · rw [if_pos h4]
        cases rs with
        | nil => exact absurd rfl h4.2.1
        | cons r rs' =>
          by_cases h3 : c.len - 1 = 0 <;> simp [h3]
      · rw [if_neg h4]
lemma rle_tape_move_rel (t : RleTape) (d : Int) :
    (rle_tape_move t d).rel_pos = t.rel_pos + d := by
  rcases t with ⟨ls, c, rs, pos, rel, sb⟩
  rw [rle_tape_move]
  simp only []
  by_cases h1 : (pos : Int) + d < 0
  · rw [if_pos h1]
    cases ls with
    | nil => by_cases h2 : c.sym = 0 <;> simp [h2]
    | cons l ls' => rfl
  · rw [if_neg h1]
    by_cases h2 : (pos : Int) + d ≥ (c.len : Int)
    · rw [if_pos h2]
      cases rs with
      | nil => by_cases h3 : c.sym = 0 <;> simp [h3]
      | cons r rs' => rfl
    · rw [if_neg h2]
lemma getD_set_self : ∀ (l : List Nat) (n a : Nat), n < l.length →
    (l.set n a).getD n 0 = a := by
  intro l
  induction l with
  | nil => intro n a h; simp at h
  | cons x xs ih =>
    intro n a h
    cases n with
    | zero => rfl
    | succ m =>
      have hm : m < xs.length := by simp at h; omega
      simpa using ih m a hm
lemma getD_replicate_zero : ∀ (k n : Nat), (List.replicate k (0 : Nat)).getD n 0 = 0 := by
  intro k
  induction k with
  | zero => intro n; cases n <;> rfl
  | succ m ih =>
    intro n
    cases n with
    | zero => rfl
    | succ n' => exact ih n'
lemma getD_pad (off k : Nat) (l : List Nat) (n : Nat) :
    (List.replicate off 0 ++ l ++ List.replicate k 0).getD n 0 =
      if off ≤ n ∧ n < off + l.length then l.getD (n - off) 0 else 0 := by
  by_cases h1 : n < off
  · rw [if_neg (by omega)]
    have hlen : n < (List.replicate off (0:Nat) ++ l).length := by
      simp; omega
    rw [List.append_assoc] at *
    rw [List.getD_append _ _ _ _ (by simp; omega)]
    exact getD_replicate_zero off n
  · by_cases h2 : n < off + l.length
    · rw [if_pos (by omega)]
      rw [List.append_assoc]
      rw [List.getD_append_right _ _ _ _ (by simp; omega)]
      rw [List.getD_append _ _ _ _ (by simp; omega)]
      simp
    · rw [if_neg (by omega)]
      rw [List.append_assoc]
      rw [List.getD_append_right _ _ _ _ (by simp; omega)]
      rw [List.getD_append_right _ _ _ _ (by simp; omega)]
      exact getD_replicate_zero k _
lemma flat_tape_write_rel (f : FlatTape) (s : Nat) :
    (flat_tape_write f s).rel_pos = f.rel_pos := rfl
lemma flat_tape_write_read_back (f : FlatTape) (s : Nat) (hinv : FlatInv f) :
    flatAt (flat_tape_write f s) f.rel_pos = s := by
  rcases hinv with ⟨h0, h1⟩
  have hm : f.memPos = f.rel_pos + f.init_pos := rfl
  rw [flatAt, flat_tape_write]
  simp only [List.length_set]
  rw [if_pos (by omega : 0 ≤ f.rel_pos + f.init_pos ∧
    f.rel_pos + f.init_pos < (f.syms.length : Int))]
  apply getD_set_self
  omega
lemma flat_tape_move_rel (f : FlatTape) (d : Int) :
    (flat_tape_move f d).rel_pos = f.rel_pos + d := by
  rw [flat_tape_move]
  by_cases h : f.memPos + d < 0 ∨ f.memPos + d ≥ (f.syms.length : Int)
  · simp only [if_pos h]
  · simp only [if_neg h]
lemma flat_tape_move_at (f : FlatTape) (d : Int) (p : Int) :
    flatAt (flat_tape_move f d) p = flatAt f p := by
  rw [flat_tape_move]
  by_cases h : f.memPos + d < 0 ∨ f.memPos + d ≥ (f.syms.length : Int)
  · simp only [if_pos h]
    rw [flatAt, flatAt]
    simp only [List.length_append, List.length_replicate]
    split_ifs with hc1 hc2 hc2
    · rw [getD_pad]
      rw [if_pos (by omega : f.syms.length / 2 ≤ (p + (f.init_pos + (↑(f.syms.length / 2) : Int))).toNat ∧
        (p + (f.init_pos + (↑(f.syms.length / 2) : Int))).toNat < f.syms.length / 2 + f.syms.length)]
      congr 1
      omega
    · rw [getD_pad]
      rw [if_neg (by omega : ¬ (f.syms.length / 2 ≤ (p + (f.init_pos + (↑(f.syms.length / 2) : Int))).toNat ∧
        (p + (f.init_pos + (↑(f.syms.length / 2) : Int))).toNat < f.syms.length / 2 + f.syms.length))]
    · exact absurd (by omega : 0 ≤ p + (f.init_pos + (↑(f.syms.length / 2) : Int)) ∧
        p + (f.init_pos + (↑(f.syms.length / 2) : Int)) <
          ↑(f.syms.length / 2 + f.syms.length + (f.syms.length * 2 - f.syms.length - f.syms.length / 2))) hc1
    · rfl
  · simp only [if_neg h]
    rfl
lemma unitsRead_write_self (W : Nat) (hW2 : W ≤ 64) (blocks : Nat → Nat)
    (i v : Nat) (hv : v < 2 ^ W) :
    unitsRead W (unitsWrite W blocks i v) i = v := by
  apply Nat.eq_of_testBit_eq
  intro t
  rw [unitsRead_testBit W hW2]
  by_cases ht : t < W
  · have h1 : streamBit (unitsWrite W blocks i v) (i * W + t) = v.testBit t := by
      rw [unitsWrite_streamBit W hW2 blocks i v hv]
      rw [if_pos (by constructor <;> omega)]
      congr 1
      omega
    rw [h1]
    simp [ht]
  · have h2 : v.testBit t = false := by
      apply Nat.testBit_lt_two_pow
      exact lt_of_lt_of_le hv (Nat.pow_le_pow_right (by norm_num) (by omega))
    rw [h2]
    simp [ht]
/-- C6 (amended): on a step of a non-halted run, tm_run_step (src/tm_run.c)
counts the step, enters the looked-up state, and write-then-moves BOTH
attached tapes, also when the new state is the halt sentinel: the written
cell of each tape reads back as the instruction symbol and each head moves by
-1 for LEFT / +1 for RIGHT.  The bitarray variant machine_step
(src/bitarray/machine.c) does the same only when the new state is not
halting; on a step entering the halt sentinel it counts the step and sets the
state but skips the tape write and the head move. -/
theorem step_effects_tm_run_and_machine :
    (∀ (run : TmRun) (r : RleTape) (f : FlatTape) (instr : TmInstr) (delta : Int),
      run.rle_tape = some r → run.flat_tape = some f →
      tm_run_halted run = false → FlatInv f →
      instr = tm_def_lookup run.tmDef run.state (rle_tape_read r) →
      delta = (if instr.dir = 0 then (-1 : Int) else 1) →
      tm_run_step run = some (decide (instr.state ≥ run.tmDef.n_states),
        { run with
          rle_tape := some (rle_tape_move (rle_tape_write r instr.sym) delta),
          flat_tape := some (flat_tape_move (flat_tape_write f instr.sym) delta),
          steps := run.steps + 1,
          state := instr.state }) ∧
      rle_tape_read (rle_tape_write r instr.sym) = instr.sym ∧
      (rle_tape_move (rle_tape_write r instr.sym) delta).rel_pos = r.rel_pos + delta ∧
      flatAt (flat_tape_move (flat_tape_write f instr.sym) delta) f.rel_pos = instr.sym ∧
      (flat_tape_move (flat_tape_write f instr.sym) delta).rel_pos = f.rel_pos + delta) ∧
    (∀ (m : Machine) (a : BAction), m.curr_state < m.n_states →
      a = m.acts m.curr_state (unitsRead m.sym_bits m.units m.curr_pos) →
      (a.o_state ≥ m.n_states →
        machine_step m = (1, { m with
          curr_step := m.curr_step + 1,
          curr_state := a.o_state })) ∧
      (a.o_state < m.n_states →
        machine_step m = (0, { m with
          curr_step := m.curr_step + 1,
          curr_state := a.o_state,
          units := unitsWrite m.sym_bits m.units m.curr_pos a.o_sym,
          curr_pos := if a.o_dir = 0 then (m.curr_pos + 1) % 2 ^ 32
            else (m.curr_pos + 2 ^ 32 - 1) % 2 ^ 32 }) ∧
        (1 ≤ m.sym_bits → m.sym_bits ≤ 64 → a.o_sym < 2 ^ m.sym_bits →
          unitsRead m.sym_bits
            (unitsWrite m.sym_bits m.units m.curr_pos a.o_sym) m.curr_pos =
            a.o_sym))) := by
  constructor
  · intro run r f instr delta hr hf hhalt hinv hinstr hdelta
    refine ⟨?_, ?_, ?_, ?_, ?_⟩
    · rw [tm_run_step, hhalt]
      simp only [Bool.false_eq_true, if_false]
      rw [hr, hf]
      simp only [Option.map_some]
      rw [← hinstr, ← hdelta]
      rfl
    · exact rle_tape_write_read_back r instr.sym
    · rw [rle_tape_move_rel, rle_tape_write_rel]
    · rw [flat_tape_move_at]
      have he : (flat_tape_write f instr.sym).rel_pos = f.rel_pos :=
        flat_tape_write_rel f instr.sym
      rw [← he]
      exact flat_tape_write_read_back f instr.sym hinv
    · rw [flat_tape_move_rel, flat_tape_write_rel]
  · intro m a hstate ha
    constructor
    · intro hhalt2
      rw [machine_step]
      rw [if_neg (by omega)]
      simp only []
      rw [← ha]
      rw [if_pos hhalt2]
    · intro hnh
      refine ⟨?_, ?_⟩
      · rw [machine_step]
        rw [if_neg (by omega)]
        simp only []
        rw [← ha]
        rw [if_neg (by omega)]
      · intro hb1 hb2 hsym
        exact unitsRead_write_self m.sym_bits hb2 m.units m.curr_pos a.o_sym hsym
/-- Witness for the C6 theorem: on the first step of runBoth the instruction
is write 1, move RIGHT, state B; both tapes read back the written 1 and both
heads advance by one; and on the concrete halting-step machine the bitarray
driver returns having only counted the step and set the state. -/
theorem step_effects_witness :
    rle_tape_read (rle_tape_write (rle_tape_init 1) 1) = 1 ∧
    (rle_tape_move (rle_tape_write (rle_tape_init 1) 1) 1).rel_pos =
      (rle_tape_init 1).rel_pos + 1 ∧
    flatAt (flat_tape_move (flat_tape_write flatBoth 1) 1) flatBoth.rel_pos = 1 ∧
    machine_step haltWriteMachine = (1, { haltWriteMachine with
      curr_step := haltWriteMachine.curr_step + 1,
      curr_state := (⟨1, 1, 0⟩ : BAction).o_state }) := by
  have h := step_effects_tm_run_and_machine
  have h1 := h.1 runBoth (rle_tape_init 1) flatBoth ⟨1, 1, 1⟩ 1 rfl rfl
    (by decide) (by decide) (by decide) (by decide)
  have h2 := (h.2 haltWriteMachine ⟨1, 1, 0⟩ (by decide) (by decide)).1 (by decide)
  exact ⟨h1.2.1, h1.2.2.1, h1.2.2.2.1, h2⟩
